import Mathlib

/-
Verification of the inverted-index / boolean-retrieval program.

Shallow embedding conventions:
  * Python strings are modelled as `List Char` (lines, tokens, identifiers);
    `str.strip`, `str.find`, slicing and `str.split()` are modelled by
    executable functions `pyStrip`, `pyFind`, `pySlice`, `splitWS` below.
  * A Python `Document` is a structure carrying `doc_id` (the raw name) and
    `doc_idx` (the monotone sequence index).  Python equality on Documents
    compares `doc_idx` only.
  * A `PostingList` (class `PostingList(list)` in inverted_index.py) is a
    structure `PList` holding the underlying list of entries together with the
    maintained `freq` counter.  An entry is `Option Document`, because the
    Python code can (and on DOCNO-less documents does) append `None`.
  * The query-side merge functions of boolean_retrieval.py operate on plain
    lists of documents sorted by `doc_idx`; they are embedded as recursive
    functions on `List Document`, the two-pointer loops becoming recursion on
    the two list tails.
  * The RPN evaluator `BooleanRetrieval.evaluate` raises `ValueError` for
    malformed queries; it is embedded as a function into
    `Except String (List Document)` carrying the exact error messages.
-/

/-- A document of the collection: `doc_id` is the raw identifier extracted
from the DOCNO element, `doc_idx` the incremental sequence index
(`Document.ID` in the Python source). -/
structure Document where
  doc_id : List Char
  doc_idx : Nat
deriving DecidableEq

/-- An entry of a posting list as the Python code can actually store it:
either a real document or Python `None`. -/
abbrev ODoc := Option Document

/-- The `PostingList` class: the underlying list plus the maintained `freq`
counter. -/
structure PList where
  docs : List ODoc
  freq : Nat
deriving DecidableEq

/-- Model of `PostingList.__init__(*args)`: the counter is initialised to the
length of the initial contents (empty or an initial sequence). -/
def PList.init (l : List ODoc) : PList := ⟨l, l.length⟩

/-- Model of the overridden `PostingList.append`: append the item and bump
`freq` by one. -/
def PList.append (pl : PList) (d : ODoc) : PList := ⟨pl.docs ++ [d], pl.freq + 1⟩

/-- Model of `PostingList.get_last_doc`: the last element if `freq > 0`,
otherwise Python `None`. -/
def PList.get_last_doc (pl : PList) : ODoc :=
  if 0 < pl.freq then (pl.docs.getLast?).getD none else none

/-- Model of `BooleanRetrieval._get_list_size` on a `PostingList` argument:
the object has a `freq` attribute, so that branch returns `freq`. -/
def get_list_size (pl : PList) : Nat := pl.freq

/-- Intersection of two sorted posting lists (`BooleanRetrieval.and_query`).
The two-pointer loop advances both pointers and emits the element of the
first list on equal `doc_idx`, otherwise advances the pointer whose current
element has the smaller `doc_idx`. -/
def and_query (l1 l2 : List Document) : List Document :=
  match l1, l2 with
  | [], _ => []
  | _ :: _, [] => []
  | a :: as, b :: bs =>
    if a.doc_idx = b.doc_idx then a :: and_query as bs
    else if a.doc_idx < b.doc_idx then and_query as (b :: bs)
    else and_query (a :: as) bs
termination_by l1.length + l2.length
decreasing_by all_goals (simp [List.length_cons]; try omega)

/-- Union of two sorted posting lists (`BooleanRetrieval.or_query`): emit the
smaller element, on ties emit the first list's element once and advance both;
when one side is exhausted the remaining tail of the other side is appended
unchanged. -/
def or_query (l1 l2 : List Document) : List Document :=
  match l1, l2 with
  | [], l2 => l2
  | l1@(_ :: _), [] => l1
  | a :: as, b :: bs =>
    if a.doc_idx < b.doc_idx then a :: or_query as (b :: bs)
    else if b.doc_idx < a.doc_idx then b :: or_query (a :: as) bs
    else a :: or_query as bs
termination_by l1.length + l2.length
decreasing_by all_goals (simp [List.length_cons]; try omega)

/-- Set difference of two sorted posting lists
(`BooleanRetrieval.and_not_query`): emit elements of the first list smaller
than the current element of the second, skip on equal `doc_idx`, advance the
second pointer otherwise; when the second list is exhausted the rest of the
first list is appended. -/
def and_not_query (l1 l2 : List Document) : List Document :=
  match l1, l2 with
  | [], _ => []
  | l1@(_ :: _), [] => l1
  | a :: as, b :: bs =>
    if a.doc_idx < b.doc_idx then a :: and_not_query as (b :: bs)
    else if a.doc_idx = b.doc_idx then and_not_query as bs
    else and_not_query (a :: as) bs
termination_by l1.length + l2.length
decreasing_by all_goals (simp [List.length_cons]; try omega)

/-- The inverted index as handed to the evaluator: a finite map from term
token to posting list (the `term_docs_dict` dictionary, documents only). -/
abbrev QIndex := List (List Char × List Document)

/-- Model of `inverted_index.get(token, [])`: the posting list of a present
term, the empty list for an unknown term. -/
def getIndex (idx : QIndex) (t : List Char) : List Document :=
  match idx.find? (fun p => p.1 == t) with
  | some p => p.2
  | none => []

/-- Dictionary lookup without the default, used to state claims about terms
that are absent from the index. -/
def lookupTerm (idx : QIndex) (t : List Char) : Option (List Char × List Document) :=
  idx.find? (fun p => p.1 == t)

/-- Membership test of a token in the evaluator's operator set
`{AND, OR, NOT}`. -/
def isOp (t : List Char) : Bool :=
  t == "AND".toList || t == "OR".toList || t == "NOT".toList

/-- The token loop of `BooleanRetrieval.evaluate`: the first argument is the
evaluation stack (head = top of stack).  Operator tokens pop `operand2` then
`operand1`; `AND` is invoked with the shorter-counted operand first; after the
last token the stack must hold exactly one element. -/
def evalTokens (idx : QIndex) : List (List Document) → List (List Char) →
    Except String (List Document)
  | stack, [] =>
    match stack with
    | [r] => Except.ok r
    | _ => Except.error "Invalid query: stack does not contain exactly one result"
  | stack, t :: ts =>
    if isOp t then
      match stack with
      | op2 :: op1 :: rest =>
        let result :=
          if t == "AND".toList then
            if op2.length < op1.length then and_query op2 op1 else and_query op1 op2
          else if t == "OR".toList then or_query op1 op2
          else and_not_query op1 op2
        evalTokens idx (result :: rest) ts
      | _ =>
        Except.error (("Invalid query: not enough operands for operator ".toList ++ t).asString)
    else evalTokens idx (getIndex idx t :: stack) ts

/-- Auxiliary loop for Python `str.split()`: the first argument is the
current in-progress token, reversed. -/
def splitWSAux : List Char → List Char → List (List Char)
  | cur, [] => if cur = [] then [] else [cur.reverse]
  | cur, c :: cs =>
    if c.isWhitespace then
      if cur = [] then splitWSAux [] cs else cur.reverse :: splitWSAux [] cs
    else splitWSAux (c :: cur) cs

/-- Python `str.split()` with no separator: split on runs of whitespace,
never producing empty tokens. -/
def splitWS (l : List Char) : List (List Char) := splitWSAux [] l

/-- Model of `BooleanRetrieval.evaluate` on the query string: split into
whitespace-separated tokens and run the stack machine on an empty stack. -/
def evaluate (idx : QIndex) (query : String) : Except String (List Document) :=
  evalTokens idx [] (splitWS query.toList)

/-- Declarative well-formedness checker for an RPN token stream, written from
the claim: track the stack depth; an operator needs depth at least two and
nets minus one, a term nets plus one; the final depth must be exactly one.
It produces the error the claim requires (immediate, naming the operator)
and is used to state when `evaluate` must fail. -/
def rpnCheck : Nat → List (List Char) → Except String Unit
  | d, [] =>
    if d = 1 then Except.ok ()
    else Except.error "Invalid query: stack does not contain exactly one result"
  | d, t :: ts =>
    if isOp t then
      if d < 2 then
        Except.error (("Invalid query: not enough operands for operator ".toList ++ t).asString)
      else rpnCheck (d - 1) ts
    else rpnCheck (d + 1) ts

/-- Python `list.find(c)` / `str.find(c)` returning the first index of `c` or
`-1` when absent, modelled on the character list. -/
def pyFind (c : Char) : List Char → Int
  | [] => -1
  | x :: xs =>
    if x = c then 0
    else if pyFind c xs < 0 then -1 else pyFind c xs + 1

/-- Python `str.find(c, start)`: first index of `c` at position `start` or
later, or `-1`. -/
def pyFindFrom (c : Char) (l : List Char) (s : Nat) : Int :=
  if pyFind c (l.drop s) < 0 then -1 else pyFind c (l.drop s) + s

/-- Python slice `l[s:e]` with a non-negative start and a possibly negative
end index: a negative end counts from the end of the list, and indices are
clamped to the list bounds. -/
def pySlice (l : List Char) (s : Nat) (e : Int) : List Char :=
  let e2 : Nat := if e < 0 then ((l.length : Int) + e).toNat else min e.toNat l.length
  (l.take e2).drop s

/-- Python `str.strip()`: remove leading and trailing whitespace. -/
def pyStrip (l : List Char) : List Char :=
  ((l.dropWhile Char.isWhitespace).reverse.dropWhile Char.isWhitespace).reverse

/-- Model of `InvertedIndex.extract_doc_name`:
`start = line.find('>') + 1`, `end = line.find('<', start)`,
`return line[start:end].strip()`.  Note that when no `<` follows, `end` is
`-1` and the Python slice drops the final character of the line. -/
def extract_doc_name (l : List Char) : List Char :=
  pyStrip (pySlice l (pyFind '>' l + 1).toNat (pyFindFrom '<' l (pyFind '>' l + 1).toNat))

/-- Characters of the line strictly after the first `>`. -/
def restAfterGt (l : List Char) : List Char :=
  (l.dropWhile (fun x => x != '>')).drop 1

/-- Extraction as the specification words it: the substring of the line
strictly between the first `>` and the next `<` that follows it, trimmed of
surrounding whitespace (when no `<` follows, everything after the `>`). -/
def claimedExtract (l : List Char) : List Char :=
  pyStrip ((restAfterGt l).takeWhile (fun x => x != '<'))

/-- Extraction as the code actually behaves: between the first `>` and the
next `<` when one follows; otherwise from after the first `>` up to but
excluding the last character of the line. -/
def amendedExtract (l : List Char) : List Char :=
  if '<' ∈ restAfterGt l then pyStrip ((restAfterGt l).takeWhile (fun x => x != '<'))
  else pyStrip (restAfterGt l).dropLast

/-- Python inequality `last_doc != document` between two
document-or-None values: `None != None` is false, a Document and `None` are
unequal, and two Documents compare by `doc_idx` (`Document.__eq__`). -/
def docNeq : ODoc → ODoc → Bool
  | some x, some y => decide (x.doc_idx ≠ y.doc_idx)
  | none, none => false
  | _, _ => true

/-- The builder's index: total map from term token to posting list, the
`defaultdict(PostingList)` (absent keys behave as the empty posting list). -/
abbrev BIndex := List Char → PList

/-- One iteration of the word loop of `InvertedIndex.process_text_line`:
skip empty tokens, otherwise append the current document to the token's
posting list unless the list's last entry is the same document. -/
def processWord (idx : BIndex) (document : ODoc) (w : List Char) : BIndex :=
  if w = [] then idx
  else if docNeq (idx w).get_last_doc document then
    fun w' => if w' = w then (idx w).append document else idx w'
  else idx

/-- Model of `InvertedIndex.process_text_line`: split the line on whitespace
and process each word in order. -/
def process_text_line (idx : BIndex) (document : ODoc) (line : List Char) : BIndex :=
  (splitWS line).foldl (fun i w => processWord i document w) idx

/-- The builder's per-file parsing state: the `in_doc` / `in_text` flags and
the pending `new_doc` of `process_file`, the global `Document.ID` counter,
and the index being populated. -/
structure BState where
  in_doc : Bool
  in_text : Bool
  new_doc : ODoc
  counter : Nat
  index : BIndex

/-- Naive substring test, modelling Python `tag in line`. -/
def containsSub (pat : List Char) : List Char → Bool
  | [] => pat.isEmpty
  | c :: rest => pat.isPrefixOf (c :: rest) || containsSub pat rest

/-- The tag checks of the line loop of `InvertedIndex.process_file`, in
source order (each branch `continue`s), applied to the already stripped
line. -/
def processTaggedLine (st : BState) (line : List Char) : BState :=
  if ("<DOC>".toList).isPrefixOf line then
    { st with in_doc := true, new_doc := none }
  else if st.in_doc && containsSub ("<DOCNO>".toList) line then
    { st with new_doc := some ⟨extract_doc_name line, st.counter⟩,
              counter := st.counter + 1 }
  else if st.in_doc && ("<TEXT>".toList).isPrefixOf line then
    { st with in_text := true }
  else if st.in_text && containsSub ("</TEXT>".toList) line then
    { st with in_text := false }
  else if st.in_text then
    { st with index := process_text_line st.index st.new_doc line }
  else if ("</DOC>".toList).isPrefixOf line then
    { st with in_doc := false, new_doc := none }
  else st

/-- One iteration of the line loop of `InvertedIndex.process_file`: strip
the line, then run the tag checks. -/
def processLine (st : BState) (rawLine : List Char) : BState :=
  processTaggedLine st (pyStrip rawLine)

/-- The builder's starting state: freshly reset sequence counter, empty
index, outside any document. -/
def initState : BState :=
  ⟨false, false, none, 0, fun _ => PList.init []⟩

/-- Run the line loop of `process_file` over a whole input, starting from the
freshly reset state. -/
def processLines (lines : List (List Char)) : BState :=
  lines.foldl processLine initState

/-- Posting lists built only through `__init__` and `append`, exactly the
mutation discipline of the program. -/
inductive PLReachable : PList → Prop
  | init (l : List ODoc) : PLReachable (PList.init l)
  | append (pl : PList) (d : ODoc) : PLReachable pl → PLReachable (pl.append d)

/-- A list of posting-list entries that is a sequence of Documents sorted
strictly ascending by seq index, which is what sortedness "by the seq_index
of its entries" presupposes and states. -/
def entriesSortedBySeq (l : List ODoc) : Prop :=
  ∃ ds : List Document, l = ds.map some ∧ ds.Pairwise (fun d e => d.doc_idx < e.doc_idx)

/-- The last entry of a posting list is a Document with the same sequence
index as `D` (the declarative condition under which the adjacent-duplicate
suppression must refrain from appending). -/
def lastIsDoc (l : List ODoc) (D : Document) : Prop :=
  ∃ E, l.getLast? = some (some E) ∧ E.doc_idx = D.doc_idx

/-- A well-formed document followed by a document whose TEXT section has no
DOCNO tag: the input on which the claimed builder invariant is tested. -/
def noDocnoInput : List (List Char) :=
  ["<DOC>".toList, "<DOCNO> A </DOCNO>".toList, "<TEXT>".toList, "cat".toList,
   "</TEXT>".toList, "</DOC>".toList, "<DOC>".toList, "<TEXT>".toList,
   "cat".toList, "</TEXT>".toList, "</DOC>".toList]

/-- Strict order on documents by sequence index. -/
abbrev docLt (d e : Document) : Prop := d.doc_idx < e.doc_idx

/-- Weak order on documents by sequence index. -/
abbrev docLe (d e : Document) : Prop := d.doc_idx ≤ e.doc_idx

theorem and_query_nil_left (l : List Document) : and_query [] l = [] := by
  simp [and_query]

theorem and_query_nil_right (l : List Document) : and_query l [] = [] := by
  cases l <;> simp [and_query]

theorem and_query_cons_eq {a b : Document} {as bs : List Document}
    (h : a.doc_idx = b.doc_idx) :
    and_query (a :: as) (b :: bs) = a :: and_query as bs := by
  simp [and_query, h]

theorem and_query_cons_lt {a b : Document} {as bs : List Document}
    (h : a.doc_idx < b.doc_idx) :
    and_query (a :: as) (b :: bs) = and_query as (b :: bs) := by
  simp [and_query, Nat.ne_of_lt h, h]

theorem and_query_cons_gt {a b : Document} {as bs : List Document}
    (h : b.doc_idx < a.doc_idx) :
    and_query (a :: as) (b :: bs) = and_query (a :: as) bs := by
  simp [and_query, ne_of_gt h, Nat.lt_asymm h]

theorem or_query_nil_left (l : List Document) : or_query [] l = l := by
  simp [or_query]

theorem or_query_nil_right (l : List Document) : or_query l [] = l := by
  cases l <;> simp [or_query]

theorem or_query_cons_lt {a b : Document} {as bs : List Document}
    (h : a.doc_idx < b.doc_idx) :
    or_query (a :: as) (b :: bs) = a :: or_query as (b :: bs) := by
  simp [or_query, h]

theorem or_query_cons_gt {a b : Document} {as bs : List Document}
    (h : b.doc_idx < a.doc_idx) :
    or_query (a :: as) (b :: bs) = b :: or_query (a :: as) bs := by
  simp [or_query, h, Nat.lt_asymm h]

theorem or_query_cons_eq {a b : Document} {as bs : List Document}
    (h : a.doc_idx = b.doc_idx) :
    or_query (a :: as) (b :: bs) = a :: or_query as bs := by
  simp [or_query, h]

theorem and_not_query_nil_left (l : List Document) : and_not_query [] l = [] := by
  simp [and_not_query]

theorem and_not_query_nil_right (l : List Document) : and_not_query l [] = l := by
  cases l <;> simp [and_not_query]

theorem and_not_query_cons_lt {a b : Document} {as bs : List Document}
    (h : a.doc_idx < b.doc_idx) :
    and_not_query (a :: as) (b :: bs) = a :: and_not_query as (b :: bs) := by
  simp [and_not_query, h]

theorem and_not_query_cons_eq {a b : Document} {as bs : List Document}
    (h : a.doc_idx = b.doc_idx) :
    and_not_query (a :: as) (b :: bs) = and_not_query as bs := by
  simp [and_not_query, h, Nat.lt_irrefl]

theorem and_not_query_cons_gt {a b : Document} {as bs : List Document}
    (h : b.doc_idx < a.doc_idx) :
    and_not_query (a :: as) (b :: bs) = and_not_query (a :: as) bs := by
  simp [and_not_query, Nat.lt_asymm h, ne_of_gt h]

theorem and_query_map_comm : ∀ l1 l2 : List Document,
    (and_query l1 l2).map Document.doc_idx = (and_query l2 l1).map Document.doc_idx := by
  intro l1
  induction l1 with
  | nil => intro l2; rw [and_query_nil_left, and_query_nil_right]
  | cons a as ih1 =>
    intro l2
    induction l2 with
    | nil => rw [and_query_nil_left, and_query_nil_right]
    | cons b bs ih2 =>
      rcases Nat.lt_trichotomy a.doc_idx b.doc_idx with h | h | h
      · rw [and_query_cons_lt h, and_query_cons_gt h, ih1 (b :: bs)]
      · rw [and_query_cons_eq h, and_query_cons_eq h.symm]
        simp [h, ih1 bs]
      · rw [and_query_cons_gt h, and_query_cons_lt h, ih2]

theorem and_not_and_mem : ∀ l1 l2 : List Document, ∀ x : Nat,
    (x ∈ (and_not_query l1 l2).map Document.doc_idx ∨
      x ∈ (and_query l1 l2).map Document.doc_idx) ↔ x ∈ l1.map Document.doc_idx := by
  intro l1
  induction l1 with
  | nil =>
    intro l2 x
    rw [and_not_query_nil_left, and_query_nil_left]
    simp
  | cons a as ih1 =>
    intro l2
    induction l2 with
    | nil =>
      intro x
      rw [and_not_query_nil_right, and_query_nil_right]
      simp
    | cons b bs ih2 =>
      intro x
      rcases Nat.lt_trichotomy a.doc_idx b.doc_idx with h | h | h
      · rw [and_not_query_cons_lt h, and_query_cons_lt h]
        simp only [List.map_cons, List.mem_cons]
        have := ih1 (b :: bs) x
        tauto
      · rw [and_not_query_cons_eq h, and_query_cons_eq h]
        simp only [List.map_cons, List.mem_cons]
        have := ih1 bs x
        tauto
      · rw [and_not_query_cons_gt h, and_query_cons_gt h, ih2]

theorem or_and_length_add : ∀ l1 l2 : List Document,
    (or_query l1 l2).length + (and_query l1 l2).length = l1.length + l2.length := by
  intro l1
  induction l1 with
  | nil => intro l2; rw [or_query_nil_left, and_query_nil_left]; simp
  | cons a as ih1 =>
    intro l2
    induction l2 with
    | nil => rw [or_query_nil_right, and_query_nil_right]
    | cons b bs ih2 =>
      rcases Nat.lt_trichotomy a.doc_idx b.doc_idx with h | h | h
      · rw [or_query_cons_lt h, and_query_cons_lt h]
        have := ih1 (b :: bs)
        simp only [List.length_cons] at *
        omega
      · rw [or_query_cons_eq h, and_query_cons_eq h]
        have := ih1 bs
        simp only [List.length_cons] at *
        omega
      · rw [or_query_cons_gt h, and_query_cons_gt h]
        simp only [List.length_cons] at *
        omega

theorem or_query_mem : ∀ l1 l2 : List Document, ∀ d : Document,
    d ∈ or_query l1 l2 → d ∈ l1 ∨ d ∈ l2 := by
  intro l1
  induction l1 with
  | nil => intro l2 d hd; rw [or_query_nil_left] at hd; exact Or.inr hd
  | cons a as ih1 =>
    intro l2
    induction l2 with
    | nil => intro d hd; rw [or_query_nil_right] at hd; exact Or.inl hd
    | cons b bs ih2 =>
      intro d hd
      rcases Nat.lt_trichotomy a.doc_idx b.doc_idx with h | h | h
      · rw [or_query_cons_lt h] at hd
        rcases List.mem_cons.1 hd with h1 | h1
        · exact Or.inl (h1 ▸ List.mem_cons_self a as)
        · rcases ih1 (b :: bs) d h1 with h2 | h2
          · exact Or.inl (List.mem_cons_of_mem a h2)
          · exact Or.inr h2
      · rw [or_query_cons_eq h] at hd
        rcases List.mem_cons.1 hd with h1 | h1
        · exact Or.inl (h1 ▸ List.mem_cons_self a as)
        · rcases ih1 bs d h1 with h2 | h2
          · exact Or.inl (List.mem_cons_of_mem a h2)
          · exact Or.inr (List.mem_cons_of_mem b h2)
      · rw [or_query_cons_gt h] at hd
        rcases List.mem_cons.1 hd with h1 | h1
        · exact Or.inr (h1 ▸ List.mem_cons_self b bs)
        · rcases ih2 d h1 with h2 | h2
          · exact Or.inl h2
          · exact Or.inr (List.mem_cons_of_mem b h2)

theorem or_query_pairwise : ∀ l1 l2 : List Document,
    l1.Pairwise docLt → l2.Pairwise docLt → (or_query l1 l2).Pairwise docLt := by
  intro l1
  induction l1 with
  | nil => intro l2 _ h2; rw [or_query_nil_left]; exact h2
  | cons a as ih1 =>
    intro l2
    induction l2 with
    | nil => intro h1 _; rw [or_query_nil_right]; exact h1
    | cons b bs ih2 =>
      intro h1 h2
      rcases List.pairwise_cons.1 h1 with ⟨ha, has⟩
      rcases List.pairwise_cons.1 h2 with ⟨hb, hbs⟩
      rcases Nat.lt_trichotomy a.doc_idx b.doc_idx with h | h | h
      · rw [or_query_cons_lt h]
        refine List.pairwise_cons.2 ⟨?_, ih1 (b :: bs) has h2⟩
        intro y hy
        rcases or_query_mem as (b :: bs) y hy with hm | hm
        · exact ha y hm
        · rcases List.mem_cons.1 hm with hm1 | hm1
          · exact hm1 ▸ h
          · exact Nat.lt_trans h (hb y hm1)
      · rw [or_query_cons_eq h]
        refine List.pairwise_cons.2 ⟨?_, ih1 bs has hbs⟩
        intro y hy
        rcases or_query_mem as bs y hy with hm | hm
        · exact ha y hm
        · exact lt_of_eq_of_lt h (hb y hm)
      · rw [or_query_cons_gt h]
        refine List.pairwise_cons.2 ⟨?_, ih2 h1 hbs⟩
        intro y hy
        rcases or_query_mem (a :: as) bs y hy with hm | hm
        · rcases List.mem_cons.1 hm with hm1 | hm1
          · exact hm1 ▸ h
          · exact Nat.lt_trans h (ha y hm1)
        · exact hb y hm

/-- Claim C1: partition law. For all lists `A` and `B` of documents sorted
ascending by `doc_idx`, the union, as a set of sequence indices, of
`and_not_query A B` and `and_query A B` equals `A` as a set. -/
theorem and_not_and_partition_law (A B : List Document)
    (_hA : A.Pairwise docLe) (_hB : B.Pairwise docLe) : ∀ x : Nat,
    (x ∈ (and_not_query A B).map Document.doc_idx ∨
      x ∈ (and_query A B).map Document.doc_idx) ↔ x ∈ A.map Document.doc_idx :=
  fun x => and_not_and_mem A B x

/-- Witness for C1 at `A = [0, 1, 2, 4]`, `B = [1, 2, 3]` (sequence
indices), evaluated at the index 4. -/
theorem and_not_and_partition_law_witness :
    (4 ∈ (and_not_query [⟨[], 0⟩, ⟨[], 1⟩, ⟨[], 2⟩, ⟨[], 4⟩]
            [⟨[], 1⟩, ⟨[], 2⟩, ⟨[], 3⟩]).map Document.doc_idx ∨
      4 ∈ (and_query [⟨[], 0⟩, ⟨[], 1⟩, ⟨[], 2⟩, ⟨[], 4⟩]
            [⟨[], 1⟩, ⟨[], 2⟩, ⟨[], 3⟩]).map Document.doc_idx) ↔
      4 ∈ ([⟨[], 0⟩, ⟨[], 1⟩, ⟨[], 2⟩, ⟨[], 4⟩] : List Document).map Document.doc_idx :=
  and_not_and_partition_law _ _ (by decide) (by decide) 4

/-- Claim C2: AND is commutative at the sequence level. For all lists `A`
and `B` of documents sorted ascending by `doc_idx`, `and_query A B` and
`and_query B A` yield identical sequences, same content and same order,
element identity taken up to Document equality, i.e. equal `doc_idx`. -/
theorem and_query_commutative (A B : List Document)
    (_hA : A.Pairwise docLe) (_hB : B.Pairwise docLe) :
    (and_query A B).map Document.doc_idx = (and_query B A).map Document.doc_idx :=
  and_query_map_comm A B

/-- Witness for C2 at `A = [0, 1, 2, 4]`, `B = [1, 2, 3]`. -/
theorem and_query_commutative_witness :
    (and_query [⟨[], 0⟩, ⟨[], 1⟩, ⟨[], 2⟩, ⟨[], 4⟩]
        [⟨[], 1⟩, ⟨[], 2⟩, ⟨[], 3⟩]).map Document.doc_idx =
      (and_query [⟨[], 1⟩, ⟨[], 2⟩, ⟨[], 3⟩]
        [⟨[], 0⟩, ⟨[], 1⟩, ⟨[], 2⟩, ⟨[], 4⟩]).map Document.doc_idx :=
  and_query_commutative _ _ (by decide) (by decide)

/-- Claim C3: for all lists `A` and `B` of documents sorted ascending by
`doc_idx` with no duplicate `doc_idx` within each list (i.e. strictly
ascending), `or_query A B` contains no duplicate sequence indices and its
length equals `|A| + |B|` minus the length of `and_query A B`. -/
theorem or_query_nodup_size (A B : List Document)
    (hA : A.Pairwise docLt) (hB : B.Pairwise docLt) :
    ((or_query A B).map Document.doc_idx).Nodup ∧
      (or_query A B).length = A.length + B.length - (and_query A B).length := by
  constructor
  · have hp : ((or_query A B).map Document.doc_idx).Pairwise (· < ·) :=
      List.pairwise_map.2 (or_query_pairwise A B hA hB)
    exact hp.imp Nat.ne_of_lt
  · have := or_and_length_add A B
    omega

/-- Witness for C3 at `A = [0, 1, 2, 4]`, `B = [1, 2, 3]`. -/
theorem or_query_nodup_size_witness :
    ((or_query [⟨[], 0⟩, ⟨[], 1⟩, ⟨[], 2⟩, ⟨[], 4⟩]
        [⟨[], 1⟩, ⟨[], 2⟩, ⟨[], 3⟩]).map Document.doc_idx).Nodup ∧
      (or_query [⟨[], 0⟩, ⟨[], 1⟩, ⟨[], 2⟩, ⟨[], 4⟩]
          [⟨[], 1⟩, ⟨[], 2⟩, ⟨[], 3⟩]).length =
        4 + 3 - (and_query [⟨[], 0⟩, ⟨[], 1⟩, ⟨[], 2⟩, ⟨[], 4⟩]
          [⟨[], 1⟩, ⟨[], 2⟩, ⟨[], 3⟩]).length :=
  or_query_nodup_size _ _ (by decide) (by decide)

theorem getIndex_of_lookup_none (idx : QIndex) (t : List Char)
    (h : lookupTerm idx t = none) : getIndex idx t = [] := by
  unfold getIndex
  unfold lookupTerm at h
  rw [h]

theorem evalTokens_rpnCheck (idx : QIndex) : ∀ (ts : List (List Char))
    (stack : List (List Document)),
    (rpnCheck stack.length ts = Except.ok () →
      ∃ r, evalTokens idx stack ts = Except.ok r) ∧
    (∀ e, rpnCheck stack.length ts = Except.error e →
      evalTokens idx stack ts = Except.error e) := by
  intro ts
  induction ts with
  | nil =>
    intro stack
    rcases stack with _ | ⟨a, _ | ⟨b, rest⟩⟩
    · constructor
      · intro h; simp [rpnCheck] at h
      · intro e he
        simp only [rpnCheck, List.length_nil] at he
        rw [if_neg (by omega)] at he
        simp only [evalTokens]
        exact congrArg Except.error ((Except.error.injEq _ _).mp he)
    · constructor
      · intro _; exact ⟨a, rfl⟩
      · intro e he; simp [rpnCheck] at he
    · constructor
      · intro h; simp [rpnCheck] at h
      · intro e he
        simp only [rpnCheck, List.length_cons] at he
        rw [if_neg (by omega)] at he
        simp only [evalTokens]
        exact congrArg Except.error ((Except.error.injEq _ _).mp he)
  | cons t ts ih =>
    intro stack
    by_cases hop : isOp t
    · rcases stack with _ | ⟨a, _ | ⟨b, rest⟩⟩
      · constructor
        · intro h
          simp only [rpnCheck, List.length_nil, hop, if_true] at h
          rw [if_pos (by omega)] at h
          exact absurd h (by simp)
        · intro e he
          simp only [rpnCheck, List.length_nil, hop, if_true] at he
          rw [if_pos (by omega)] at he
          simp only [evalTokens, hop, if_true]
          exact (Except.error.injEq _ _).mpr ((Except.error.injEq _ _).mp he)
      · constructor
        · intro h
          simp only [rpnCheck, List.length_cons, List.length_nil, hop, if_true] at h
          rw [if_pos (by omega)] at h
          exact absurd h (by simp)
        · intro e he
          simp only [rpnCheck, List.length_cons, List.length_nil, hop, if_true] at he
          rw [if_pos (by omega)] at he
          simp only [evalTokens, hop, if_true]
          exact (Except.error.injEq _ _).mpr ((Except.error.injEq _ _).mp he)
      · have hstep : rpnCheck (a :: b :: rest).length (t :: ts) =
            rpnCheck (b :: rest).length ts := by
          simp only [rpnCheck, List.length_cons, hop, if_true]
          rw [if_neg (by omega)]
          try congr 1
          try omega
        constructor
        · intro h
          rw [hstep] at h
          simp only [evalTokens, hop, if_true]
          exact (ih _).1 h
        · intro e he
          rw [hstep] at he
          simp only [evalTokens, hop, if_true]
          exact (ih _).2 e he
    · have hstep : rpnCheck stack.length (t :: ts) =
          rpnCheck (getIndex idx t :: stack).length ts := by
        simp only [rpnCheck, List.length_cons, hop, if_false, Bool.false_eq_true]
      constructor
      · intro h
        rw [hstep] at h
        simp only [evalTokens, hop, if_false, Bool.false_eq_true]
        exact (ih _).1 h
      · intro e he
        rw [hstep] at he
        simp only [evalTokens, hop, if_false, Bool.false_eq_true]
        exact (ih _).2 e he

/-- Claim C5: the evaluator raises a malformed-query signal exactly when some
operator token is reached with fewer than two items on the stack — raised
immediately, naming the operator, before any lookup of later term tokens —
or when, after all tokens are consumed, the stack depth is not exactly one;
otherwise it returns the single remaining stack element.  `rpnCheck` is the
index-independent depth count written from the claim; the first two
conjuncts say `evalTokens` succeeds or fails exactly as `rpnCheck`
prescribes, with the prescribed message; the third says an operator reached
on a deficient stack fails at once, for every index and whatever tokens
follow, with the message naming the operator. -/
theorem evaluate_malformed_query (idx : QIndex) (tokens : List (List Char)) :
    (rpnCheck 0 tokens = Except.ok () →
      ∃ r, evalTokens idx [] tokens = Except.ok r) ∧
    (∀ e, rpnCheck 0 tokens = Except.error e →
      evalTokens idx [] tokens = Except.error e) ∧
    (∀ (op : List Char) (ts : List (List Char)), isOp op = true →
      evalTokens idx [] (op :: ts) =
        Except.error
          (("Invalid query: not enough operands for operator ".toList ++ op).asString)) := by
  refine ⟨(evalTokens_rpnCheck idx tokens []).1, (evalTokens_rpnCheck idx tokens []).2, ?_⟩
  intro op ts hop
  simp only [evalTokens, hop, if_true]

/-- Witness for C5: the query string `AND X` fails immediately with the
message naming `AND`, on the empty index. -/
theorem evaluate_malformed_query_witness :
    evaluate [] "AND X" =
      Except.error "Invalid query: not enough operands for operator AND" := by
  have h := (evaluate_malformed_query [] ["AND".toList, "X".toList]).2.2
    "AND".toList ["X".toList] (by decide)
  have hs : splitWS "AND X".toList = ["AND".toList, "X".toList] := by decide
  show evalTokens [] [] (splitWS "AND X".toList) = _
  rw [hs, h]
  exact congrArg Except.error (by decide)

/-- Claim C4: for every index and terms `X`, `Y` whose posting lists in the
index are `A` and `B` (sorted ascending), evaluating the query `X Y AND`
returns the same sequence as `and_query A B`, sequence identity taken up to
Document equality (equal `doc_idx`): the evaluator's size-based reordering,
which passes the shorter-counted operand first to the AND merge, does not
alter the returned content or its order. -/
theorem evaluate_and_shorter_first (idx : QIndex) (X Y : List Char)
    (A B : List Document)
    (hX : isOp X = false) (hY : isOp Y = false)
    (hA : getIndex idx X = A) (hB : getIndex idx Y = B)
    (_hsA : A.Pairwise docLe) (_hsB : B.Pairwise docLe) :
    ∃ r, evalTokens idx [] [X, Y, "AND".toList] = Except.ok r ∧
      r.map Document.doc_idx = (and_query A B).map Document.doc_idx := by
  have hop : isOp ['A', 'N', 'D'] = true := by decide
  by_cases hl : B.length < A.length
  · refine ⟨and_query B A, ?_, and_query_map_comm B A⟩
    simp [evalTokens, hX, hY, hA, hB, hop, hl]
  · refine ⟨and_query A B, ?_, rfl⟩
    simp [evalTokens, hX, hY, hA, hB, hop, hl]

/-- Witness for C4 on the index `{x : [0, 1], y : [1]}` with `X = x`,
`Y = y`. -/
theorem evaluate_and_shorter_first_witness :
    ∃ r, evalTokens [("x".toList, [⟨[], 0⟩, ⟨[], 1⟩]), ("y".toList, [⟨[], 1⟩])]
        [] ["x".toList, "y".toList, "AND".toList] = Except.ok r ∧
      r.map Document.doc_idx =
        (and_query [⟨[], 0⟩, ⟨[], 1⟩] [⟨[], 1⟩]).map Document.doc_idx :=
  evaluate_and_shorter_first _ ("x".toList) ("y".toList)
    [⟨[], 0⟩, ⟨[], 1⟩] [⟨[], 1⟩]
    (by decide) (by decide) (by decide) (by decide) (by decide) (by decide)

theorem evalTokens_all_unknown (idx : QIndex) : ∀ (ts : List (List Char))
    (stack : List (List Document)),
    (∀ x ∈ stack, x = []) →
    (∀ t ∈ ts, isOp t = false → lookupTerm idx t = none) →
    rpnCheck stack.length ts = Except.ok () →
    evalTokens idx stack ts = Except.ok [] := by
  intro ts
  induction ts with
  | nil =>
    intro stack hstack _ hok
    rcases stack with _ | ⟨a, _ | ⟨b, rest⟩⟩
    · simp [rpnCheck] at hok
    · have ha : a = [] := hstack a (List.mem_cons_self a [])
      subst ha
      simp [evalTokens]
    · simp only [rpnCheck, List.length_cons] at hok
      rw [if_neg (by omega)] at hok
      exact absurd hok (by simp)
  | cons t ts ih =>
    intro stack hstack hterms hok
    by_cases hop : isOp t
    · rcases stack with _ | ⟨a, _ | ⟨b, rest⟩⟩
      · simp only [rpnCheck, List.length_nil, hop, if_true] at hok
        rw [if_pos (by omega)] at hok
        exact absurd hok (by simp)
      · simp only [rpnCheck, List.length_cons, List.length_nil, hop, if_true] at hok
        rw [if_pos (by omega)] at hok
        exact absurd hok (by simp)
      · have ha : a = [] := hstack a (by simp)
        have hb : b = [] := hstack b (by simp)
        subst ha
        subst hb
        have hres : (if t == "AND".toList then
              (if (([] : List Document)).length < (([] : List Document)).length then
                and_query [] [] else and_query [] [])
            else if t == "OR".toList then or_query ([] : List Document) []
            else and_not_query ([] : List Document) []) = [] := by
          rw [and_query_nil_left, or_query_nil_left, and_not_query_nil_left]
          simp
        simp only [evalTokens, hop, if_true]
        rw [hres]
        apply ih ([] :: rest)
        · intro x hx
          rcases List.mem_cons.1 hx with h1 | h1
          · exact h1
          · exact hstack x (by simp [h1])
        · intro u hu hu2
          exact hterms u (by simp [hu]) hu2
        · simp only [rpnCheck, List.length_cons, hop, if_true] at hok
          rw [if_neg (by omega)] at hok
          simpa using hok
    · have hlk : lookupTerm idx t = none :=
        hterms t (List.mem_cons_self t ts) (by simpa using hop)
      have hgi : getIndex idx t = [] := getIndex_of_lookup_none idx t hlk
      simp only [evalTokens, hop, if_false, Bool.false_eq_true]
      rw [hgi]
      apply ih ([] :: stack)
      · intro x hx
        rcases List.mem_cons.1 hx with h1 | h1
        · exact h1
        · exact hstack x h1
      · intro u hu hu2
        exact hterms u (by simp [hu]) hu2
      · simp only [rpnCheck, List.length_cons, hop, if_false, Bool.false_eq_true] at hok
        simpa using hok

/-- Claim C9: for every index, a term token not present in the index
resolves to the empty posting list and is pushed without raising any error
(second conjunct: the evaluator's step on an absent term is exactly a push
of the empty list); a well-formed query all of whose term tokens are
unknown succeeds and returns the result of the set algebra applied to empty
lists, namely the empty list. -/
theorem unknown_terms_resolve_empty (idx : QIndex) :
    (∀ t, lookupTerm idx t = none → getIndex idx t = []) ∧
    (∀ (stack : List (List Document)) (t : List Char) (ts : List (List Char)),
      isOp t = false → lookupTerm idx t = none →
      evalTokens idx stack (t :: ts) = evalTokens idx ([] :: stack) ts) ∧
    (∀ tokens : List (List Char),
      (∀ t ∈ tokens, isOp t = false → lookupTerm idx t = none) →
      rpnCheck 0 tokens = Except.ok () →
      evalTokens idx [] tokens = Except.ok []) := by
  refine ⟨fun t => getIndex_of_lookup_none idx t, ?_, ?_⟩
  · intro stack t ts hop hlk
    have hgi : getIndex idx t = [] := getIndex_of_lookup_none idx t hlk
    simp only [evalTokens, hop, if_false, Bool.false_eq_true, hgi]
  · intro tokens h1 h2
    exact evalTokens_all_unknown idx tokens [] (by simp) h1 h2

/-- Witness for C9: on the index `{cat : [0]}`, the query tokens
`foo bar AND` with both terms unknown evaluate to the empty list. -/
theorem unknown_terms_resolve_empty_witness :
    evalTokens [("cat".toList, [⟨[], 0⟩])] []
      ["foo".toList, "bar".toList, "AND".toList] = Except.ok [] :=
  (unknown_terms_resolve_empty [("cat".toList, [⟨[], 0⟩])]).2.2
    ["foo".toList, "bar".toList, "AND".toList] (by decide) (by rfl)

/-- Claim C10: maintained-count invariant.  Every `PostingList` constructed
by `__init__` (empty or from an initial sequence) and mutated only by
`append` has `freq` equal to the actual number of elements of the list, and
`_get_list_size` returns exactly that number, so the size lookup used by the
AND optimization agrees with the true list length without a re-scan. -/
theorem posting_list_freq_invariant : ∀ pl : PList, PLReachable pl →
    pl.freq = pl.docs.length ∧ get_list_size pl = pl.docs.length := by
  intro pl h
  induction h with
  | init l => exact ⟨rfl, rfl⟩
  | append pl d _ ih =>
    constructor
    · simp [PList.append, ih.1]
    · simp [PList.append, get_list_size, ih.1]

/-- Witness for C10 on the posting list built by one `append` on an empty
`__init__`. -/
theorem posting_list_freq_invariant_witness :
    ((PList.init []).append (some ⟨[], 0⟩)).freq =
        ((PList.init []).append (some ⟨[], 0⟩)).docs.length ∧
      get_list_size ((PList.init []).append (some ⟨[], 0⟩)) =
        ((PList.init []).append (some ⟨[], 0⟩)).docs.length :=
  posting_list_freq_invariant _ (PLReachable.append _ _ (PLReachable.init []))

/-- Claim C6 is contradicted by the code: on `noDocnoInput` — a well-formed
document containing `cat` followed by a document whose TEXT section lacks a
DOCNO tag and also contains `cat` — the builder appends Python `None` to the
posting list of `cat` (`last_doc != document` is true when `last_doc` is a
Document and `document` is `None`), so the resulting posting list
`[Document A, None]` is not a sequence of Documents sorted strictly
ascending by seq index, contradicting the claimed invariant for reachable
states on inputs whose TEXT sections lack a DOCNO tag. -/
theorem builder_appends_none_entry :
    ((processLines noDocnoInput).index "cat".toList).docs =
        [some ⟨"A".toList, 0⟩, none] ∧
      ¬ entriesSortedBySeq [some ⟨"A".toList, 0⟩, none] := by
  constructor
  · decide
  · rintro ⟨ds, hmap, _⟩
    rcases ds with _ | ⟨d1, _ | ⟨d2, rest⟩⟩ <;> simp at hmap

/-- Claim C7: adjacent-duplicate suppression.  When a text line is processed
for a current document `D`, a non-empty token's posting list receives `D`
if and only if the list's current last entry is not equal to `D` (equality
by seq index); the empty list counts as "last entry not equal", so the
first occurrence is always appended; and processing the same token again
for `D` right away appends nothing more, so a token repeated within the
same contiguous run for `D` is appended only once.  The hypothesis states
that the list's maintained count is coherent, which holds for every posting
list the builder constructs. -/
theorem processWord_dedup (idx : BIndex) (D : Document) (w : List Char)
    (hw : w ≠ []) (hfreq : (idx w).freq = (idx w).docs.length) :
    (¬ lastIsDoc (idx w).docs D →
      ((processWord idx (some D) w) w).docs = (idx w).docs ++ [some D]) ∧
    (lastIsDoc (idx w).docs D → processWord idx (some D) w = idx) ∧
    processWord (processWord idx (some D) w) (some D) w =
      processWord idx (some D) w := by
  have hneq : docNeq (idx w).get_last_doc (some D) = true ↔
      ¬ lastIsDoc (idx w).docs D := by
    unfold PList.get_last_doc lastIsDoc
    rcases hlast : (idx w).docs.getLast? with _ | x
    · have hnil : (idx w).docs = [] := List.getLast?_eq_none_iff.mp hlast
      rw [hfreq, hnil]
      simp [docNeq]
    · have hpos : 0 < (idx w).docs.length := by
        rcases hd : (idx w).docs with _ | ⟨y, ys⟩
        · rw [hd] at hlast; simp at hlast
        · simp
      rw [hfreq, if_pos hpos]
      rcases x with _ | E
      · simp [docNeq]
      · simp [docNeq]
  refine ⟨?_, ?_, ?_⟩
  · intro hnot
    have hd : docNeq (idx w).get_last_doc (some D) = true := hneq.mpr hnot
    unfold processWord
    rw [if_neg hw, if_pos hd]
    simp [PList.append]
  · intro hyes
    unfold processWord
    rw [if_neg hw]
    rcases h : docNeq (idx w).get_last_doc (some D) with _ | _
    · simp
    · exact absurd hyes (hneq.mp h)
  · rcases h : docNeq (idx w).get_last_doc (some D) with _ | _
    · have hid : processWord idx (some D) w = idx := by
        unfold processWord
        rw [if_neg hw, h]
        simp
      rw [hid]
      exact hid
    · have happ : processWord idx (some D) w =
          fun w' => if w' = w then (idx w).append (some D) else idx w' := by
        unfold processWord
        rw [if_neg hw, h]
        simp
      rw [happ]
      have hlast2 : ((fun w' => if w' = w then (idx w).append (some D)
          else idx w') w).get_last_doc = some D := by
        simp only [if_pos rfl]
        unfold PList.get_last_doc PList.append
        simp [List.getLast?_concat]
      unfold processWord
      rw [if_neg hw, hlast2]
      simp [docNeq]

/-- Witness for C7 at the empty index, document with seq index 0, and token
`cat`. -/
theorem processWord_dedup_witness :
    (¬ lastIsDoc (((fun _ => PList.init []) : BIndex) "cat".toList).docs ⟨[], 0⟩ →
      ((processWord (fun _ => PList.init []) (some ⟨[], 0⟩) "cat".toList)
          "cat".toList).docs =
        (((fun _ => PList.init []) : BIndex) "cat".toList).docs ++ [some ⟨[], 0⟩]) ∧
    (lastIsDoc (((fun _ => PList.init []) : BIndex) "cat".toList).docs ⟨[], 0⟩ →
      processWord (fun _ => PList.init []) (some ⟨[], 0⟩) "cat".toList =
        fun _ => PList.init []) ∧
    processWord (processWord (fun _ => PList.init []) (some ⟨[], 0⟩) "cat".toList)
        (some ⟨[], 0⟩) "cat".toList =
      processWord (fun _ => PList.init []) (some ⟨[], 0⟩) "cat".toList :=
  processWord_dedup (fun _ => PList.init []) ⟨[], 0⟩ "cat".toList
    (by decide) rfl

theorem pyFind_of_not_mem (c : Char) : ∀ l : List Char, c ∉ l → pyFind c l = -1 := by
  intro l
  induction l with
  | nil => intro _; rfl
  | cons x xs ih =>
    intro h
    have hx : ¬ x = c := fun he => h (he ▸ List.mem_cons_self x xs)
    have hxs : c ∉ xs := fun hm => h (List.mem_cons_of_mem x hm)
    simp only [pyFind, if_neg hx, ih hxs]
    simp

theorem pyFind_of_mem (c : Char) : ∀ l : List Char, c ∈ l →
    pyFind c l = ((l.takeWhile (fun x => x != c)).length : Int) := by
  intro l
  induction l with
  | nil => intro h; simp at h
  | cons x xs ih =>
    intro h
    by_cases hx : x = c
    · subst hx
      simp [pyFind, List.takeWhile_cons]
    · have hc : c ∈ xs := by
        rcases List.mem_cons.1 h with h1 | h1
        · exact absurd h1.symm hx
        · exact h1
      have hbne : (x != c) = true := by simp [hx]
      simp only [pyFind]
      rw [if_neg hx, ih hc, if_neg (by omega), List.takeWhile_cons, if_pos hbne,
        List.length_cons]
      omega

theorem takeWhile_length_lt_of_mem (c : Char) : ∀ l : List Char, c ∈ l →
    (l.takeWhile (fun x => x != c)).length < l.length := by
  intro l
  induction l with
  | nil => intro h; simp at h
  | cons x xs ih =>
    intro h
    by_cases hx : x = c
    · subst hx
      simp [List.takeWhile_cons]
    · have hc : c ∈ xs := by
        rcases List.mem_cons.1 h with h1 | h1
        · exact absurd h1.symm hx
        · exact h1
      have hbne : (x != c) = true := by simp [hx]
      simp only [List.takeWhile_cons, hbne, if_pos rfl, List.length_cons]
      exact Nat.succ_lt_succ (ih hc)

theorem takeWhile_length_le (p : Char → Bool) : ∀ l : List Char,
    (l.takeWhile p).length ≤ l.length := by
  intro l
  induction l with
  | nil => simp
  | cons x xs ih =>
    by_cases hx : p x
    · simp only [List.takeWhile_cons, hx, if_pos rfl, List.length_cons]
      exact Nat.succ_le_succ ih
    · simp only [List.takeWhile_cons]
      rw [if_neg (by simp [hx])]
      simp

theorem drop_takeWhile_length (p : Char → Bool) : ∀ l : List Char,
    l.drop (l.takeWhile p).length = l.dropWhile p := by
  intro l
  induction l with
  | nil => rfl
  | cons x xs ih =>
    by_cases hx : p x
    · simp only [List.takeWhile_cons, List.dropWhile_cons, hx, if_pos rfl,
        List.length_cons, List.drop_succ_cons]
      exact ih
    · simp only [List.takeWhile_cons, List.dropWhile_cons]
      rw [if_neg (by simp [hx]), if_neg (by simp [hx])]
      simp

theorem take_takeWhile_length (p : Char → Bool) : ∀ l : List Char,
    l.take (l.takeWhile p).length = l.takeWhile p := by
  intro l
  induction l with
  | nil => rfl
  | cons x xs ih =>
    by_cases hx : p x
    · rw [List.takeWhile_cons, if_pos hx, List.length_cons, List.take_succ_cons, ih]
    · simp only [List.takeWhile_cons]
      rw [if_neg (by simp [hx])]
      simp

theorem extract_eq_amended (l : List Char) (hgt : '>' ∈ l) :
    extract_doc_name l = amendedExtract l := by
  have hk := pyFind_of_mem '>' l hgt
  have hklt := takeWhile_length_lt_of_mem '>' l hgt
  set k := (l.takeWhile (fun x => x != '>')).length with hkdef
  have hstart : (pyFind '>' l + 1).toNat = k + 1 := by
    rw [hk]; omega
  have hrest : restAfterGt l = l.drop (k + 1) := by
    unfold restAfterGt
    rw [(List.drop_drop 1 k l).symm, hkdef, drop_takeWhile_length]
  unfold extract_doc_name amendedExtract
  rw [hstart, hrest]
  by_cases hlt : '<' ∈ l.drop (k + 1)
  · have hj := pyFind_of_mem '<' (l.drop (k + 1)) hlt
    set j := ((l.drop (k + 1)).takeWhile (fun x => x != '<')).length with hjdef
    have hjle : j ≤ l.length - (k + 1) := by
      have := takeWhile_length_le (fun x => x != '<') (l.drop (k + 1))
      rw [← hjdef] at this
      simpa [List.length_drop] using this
    have hff : pyFindFrom '<' l (k + 1) = (j : Int) + (k + 1) := by
      unfold pyFindFrom
      rw [hj, if_neg (by omega)]
      omega
    rw [hff, if_pos hlt]
    unfold pySlice
    rw [if_neg (by omega)]
    have he2 : min ((j : Int) + ((k : Nat) + 1)).toNat l.length = j + (k + 1) := by
      omega
    rw [he2, List.drop_take]
    have harith : j + (k + 1) - (k + 1) = j := by omega
    rw [harith, hjdef, take_takeWhile_length]
  · have hnone := pyFind_of_not_mem '<' (l.drop (k + 1)) hlt
    have hff : pyFindFrom '<' l (k + 1) = -1 := by
      unfold pyFindFrom
      rw [hnone]
      simp
    rw [hff, if_neg hlt]
    unfold pySlice
    rw [if_pos (by omega)]
    have he2 : ((l.length : Int) + (-1)).toNat = l.length - 1 := by omega
    rw [he2, List.drop_take, List.dropLast_eq_take, List.length_drop]
    have harith : l.length - 1 - (k + 1) = l.length - (k + 1) - 1 := by omega
    rw [harith]

theorem isPrefixOf_mem : ∀ pat l : List Char, pat.isPrefixOf l = true →
    ∀ c ∈ pat, c ∈ l := by
  intro pat
  induction pat with
  | nil => intro l _ c hc; simp at hc
  | cons p ps ih =>
    intro l h c hc
    rcases l with _ | ⟨x, xs⟩
    · simp [List.isPrefixOf] at h
    · simp only [List.isPrefixOf, Bool.and_eq_true, beq_iff_eq] at h
      rcases List.mem_cons.1 hc with h1 | h1
      · exact List.mem_cons.2 (Or.inl (h1.trans h.1))
      · exact List.mem_cons.2 (Or.inr (ih xs h.2 c h1))

theorem containsSub_mem : ∀ pat l : List Char, containsSub pat l = true →
    ∀ c ∈ pat, c ∈ l := by
  intro pat l
  induction l with
  | nil =>
    intro h c hc
    simp only [containsSub, List.isEmpty_iff] at h
    subst h
    simp at hc
  | cons x xs ih =>
    intro h c hc
    simp only [containsSub, Bool.or_eq_true] at h
    rcases h with h1 | h1
    · exact isPrefixOf_mem pat (x :: xs) h1 c hc
    · exact List.mem_cons.2 (Or.inr (ih h1 c hc))

/-- Counterexample to claim C8 as stated: for the in-document line
`<DOCNO> ABC` — which contains the DOCNO open tag but no `<` after the first
`>` — the stored `raw_id` is `AB` (the Python slice `line[start:-1]` drops
the final character), not the trimmed substring after the first `>`
(`ABC`) that the claim prescribes for such lines. -/
theorem extract_doc_name_counterexample :
    (processLine ⟨true, false, none, 0, fun _ => PList.init []⟩
        "<DOCNO> ABC".toList).new_doc = some ⟨"AB".toList, 0⟩ ∧
      claimedExtract ("<DOCNO> ABC".toList) = "ABC".toList ∧
      "AB".toList ≠ "ABC".toList :=
  ⟨by decide, by decide, by decide⟩

/-- Claim C8 amended: for every line containing the DOCNO open tag
encountered while in a document (and not starting with the DOC open tag,
which takes precedence), the identifier stored as the new Document's
`raw_id` equals the substring of the stripped line strictly between the
first `>` and the next `<` that follows it, trimmed of surrounding
whitespace, when such a `<` exists; when no `<` appears after the first
`>`, it equals the substring from just after the first `>` up to but
excluding the line's last character, trimmed (Python's `find` returns `-1`
and the slice `line[start:-1]` drops the final character).  The new
document receives the current sequence counter. -/
theorem extract_doc_name_amended (st : BState) (line : List Char)
    (hdoc : st.in_doc = true)
    (hnpref : ("<DOC>".toList).isPrefixOf (pyStrip line) = false)
    (hdocno : containsSub ("<DOCNO>".toList) (pyStrip line) = true) :
    (processLine st line).new_doc =
      some ⟨amendedExtract (pyStrip line), st.counter⟩ := by
  have hgt : '>' ∈ pyStrip line :=
    containsSub_mem _ _ hdocno '>' (by decide)
  unfold processLine processTaggedLine
  rw [hnpref, hdoc, hdocno]
  rw [if_neg (by simp)]
  rw [if_pos (by simp)]
  rw [extract_eq_amended _ hgt]

/-- Witness for the amended C8 on a closed DOCNO line. -/
theorem extract_doc_name_amended_witness :
    (processLine ⟨true, false, none, 0, fun _ => PList.init []⟩
        "<DOCNO> AP-1 </DOCNO>".toList).new_doc =
      some ⟨amendedExtract (pyStrip "<DOCNO> AP-1 </DOCNO>".toList), 0⟩ :=
  extract_doc_name_amended ⟨true, false, none, 0, fun _ => PList.init []⟩
    ("<DOCNO> AP-1 </DOCNO>".toList) rfl (by decide) (by decide)
